import Mathlib

/-!
Shallow embedding of the `dupe` duplicate-file finder (src/main.rs, src/size.rs)
and proofs about its progressive grouping pipeline.

File contents are byte lists (`List Nat`); the fallible I/O of the Rust code is
made explicit by boolean fields on `Entry`: `metaOk` (metadata() succeeds),
`canOpen` (File::open succeeds), `readOk` (reads succeed).  SHA-1 is an
abstract digest function `hash : List Nat → List Nat`; claims that treat it as
collision-free take `Function.Injective hash` as a hypothesis.
-/

namespace Dupe

/-- Bytes of a file, each in 0..255, as a list. -/
abbrev Bytes := List Nat

/-- Embedding of a `walkdir::DirEntry` together with the I/O behaviour of the
underlying file: `path` is the full path (used for identity/display), `name`
the last path component (`file_name()`), `content` the byte sequence of the
regular file, `isFile` whether `file_type().is_file()` holds, `metaOk` whether
`metadata()` succeeds, `canOpen` whether `File::open` succeeds, and `readOk`
whether reads on the opened file succeed. -/
structure Entry where
  path : String
  name : String
  content : Bytes
  isFile : Bool
  metaOk : Bool
  canOpen : Bool
  readOk : Bool
deriving DecidableEq

/-- `e.metadata().map(|m| m.size()).ok()`: the byte size of a regular file is
the length of its byte sequence; `None` when metadata cannot be read. -/
def metadataSize (e : Entry) : Option Nat :=
  if e.metaOk then some e.content.length else none

/-- `Some(e.file_name().to_owned())`: the name signature, always succeeds. -/
def sigName (e : Entry) : Option String :=
  some e.name

/-- `sha1_read(path, bytes_limit)` from src/main.rs.  `File::open` failure
yields `none`.  For `bytes_limit > 0` a `bytes_limit`-byte zero buffer is
allocated, a single `read` fills its front (a failed read is discarded by
`.ok()`, leaving the buffer all zeros), and the digest of the whole buffer is
returned.  For `bytes_limit = 0` the whole file is digested through `fill_buf`,
whose errors are treated as end of input by `unwrap_or(&[])`. -/
def sha1Read (hash : Bytes → Bytes) (e : Entry) (bytesLimit : Nat) : Option Bytes :=
  if e.canOpen then
    if 0 < bytesLimit then
      let readBytes := if e.readOk then e.content.take bytesLimit else []
      some (hash (readBytes ++ List.replicate (bytesLimit - readBytes.length) 0))
    else
      some (hash (if e.readOk then e.content else []))
  else
    none

/-- The `Algorithm` value enum of src/main.rs. -/
inductive Algorithm where
  | name
  | size
  | nameAndSize
  | fuzzyContent
  | fullContent
deriving DecidableEq

/-- `map.entry(key).or_insert(Vec::new()).push(entry)` on the association-list
model of the `HashMap`: append `e` to the group stored under `k`, creating the
binding when absent. -/
def insertEntry {K : Type} [DecidableEq K] :
    List (K × List Entry) → K → Entry → List (K × List Entry)
  | [], k, e => [(k, [e])]
  | (k₁, g₁) :: rest, k, e =>
    if k₁ = k then (k₁, g₁ ++ [e]) :: rest else (k₁, g₁) :: insertEntry rest k e

/-- The `fold` of `find_duplicates_by`: build the map from signature keys to
the entries carrying that key (entries whose signature is `None` are skipped
by the `Option::map`). -/
def buildMap {K : Type} [DecidableEq K] (files : List Entry) (f : Entry → Option K) :
    List (K × List Entry) :=
  files.foldl
    (fun map e =>
      match f e with
      | some k => insertEntry map k e
      | none => map)
    []

/-- `find_duplicates_by(files, f)`: group by signature key, keep the groups
with more than one member (`into_values().filter(|g| g.len() > 1)`). -/
def findDuplicatesBy {K : Type} [DecidableEq K] (files : List Entry) (f : Entry → Option K) :
    List (List Entry) :=
  ((buildMap files f).map Prod.snd).filter (fun g => 1 < g.length)

/-- One pipeline stage of `find_duplicate_files`:
`dupes.map(|g| find_duplicates_by(g, f)).flatten()`. -/
def applyStage {K : Type} [DecidableEq K] (f : Entry → Option K) (dupes : List (List Entry)) :
    List (List Entry) :=
  (dupes.map (fun g => findDuplicatesBy g f)).flatten

/-- `find_duplicate_files(files, algorithm)`: the progressive pipeline, with
the initial candidate set as the single starting group, running the stages
enabled by the algorithm in their fixed order (name, size, 1024-byte prefix
hash, 4096-byte prefix hash, full-content hash). -/
def findDuplicateFiles (hash : Bytes → Bytes) (files : List Entry) (algorithm : Algorithm) :
    List (List Entry) :=
  let dupes := [files]
  let dupes :=
    if algorithm ∈ [Algorithm.name, Algorithm.nameAndSize] then
      applyStage sigName dupes
    else dupes
  let dupes :=
    if algorithm ∈ [Algorithm.size, Algorithm.nameAndSize,
        Algorithm.fuzzyContent, Algorithm.fullContent] then
      applyStage metadataSize dupes
    else dupes
  let dupes :=
    if algorithm ∈ [Algorithm.fuzzyContent, Algorithm.fullContent] then
      applyStage (fun e => sha1Read hash e 4096)
        (applyStage (fun e => sha1Read hash e 1024) dupes)
    else dupes
  let dupes :=
    if algorithm ∈ [Algorithm.fullContent] then
      applyStage (fun e => sha1Read hash e 0) dupes
    else dupes
  dupes

/-- The candidate collection of `main`:
`e.file_type().is_file() && e.metadata().is_ok_and(|m| m.size() > min_size)`. -/
def collectFiles (entries : List Entry) (minSize : Nat) : List Entry :=
  entries.filter (fun e =>
    e.isFile &&
      match metadataSize e with
      | some s => decide (minSize < s)
      | none => false)

/-- Total size of a final group in `main`:
`group.iter().filter_map(|e| e.metadata().map(|m| m.size()).ok()).sum()`. -/
def groupSize (g : List Entry) : Nat :=
  (g.filterMap metadataSize).sum

/-- The result-aggregation fold of `main` on the association-list model of the
`BTreeMap`: `map.entry(size).or_insert(group)` inserts only when the total
size is not yet a key, so the first-inserted group wins. -/
def buildDupeMap (groups : List (List Entry)) : List (Nat × List Entry) :=
  groups.foldl
    (fun map g =>
      if groupSize g ∈ map.map Prod.fst then map
      else map ++ [(groupSize g, g)])
    []

/-- Lookup in the association-list model of the `BTreeMap`. -/
def lookupSize (map : List (Nat × List Entry)) (s : Nat) : Option (List Entry) :=
  (map.find? (fun p => p.1 = s)).map Prod.snd

/-- The `Unit` enum of src/size.rs. -/
inductive SizeUnit where
  | kilobyte
  | megabyte
  | gigabyte
deriving DecidableEq

/-- `impl fmt::Display for Unit`. -/
def unitSuffix : SizeUnit → String
  | SizeUnit.kilobyte => "Kb"
  | SizeUnit.megabyte => "Mb"
  | SizeUnit.gigabyte => "Gb"

/-- `Size::new`: the range match `0..1_000_000`, `1_000_000..1_000_000_000`,
`_` choosing the unit. -/
def sizeUnit (size : Nat) : SizeUnit :=
  if size < 1000000 then SizeUnit.kilobyte
  else if size < 1000000000 then SizeUnit.megabyte
  else SizeUnit.gigabyte

/-- The divisor matched on the unit in `impl fmt::Display for Size`. -/
def unitDivisor : SizeUnit → Nat
  | SizeUnit.kilobyte => 1000
  | SizeUnit.megabyte => 1000000
  | SizeUnit.gigabyte => 1000000000

/-- Round the fraction `a / b` (with `b > 0`) to the nearest natural, ties to
even: IEEE-754 default rounding, also the rounding of Rust fixed-precision
float formatting. -/
def rneFrac (a b : Nat) : Nat :=
  let q := a / b
  let r := a % b
  if 2 * r < b then q
  else if b < 2 * r then q + 1
  else if q % 2 = 0 then q else q + 1

/-- Fuel-driven base-2 logarithm on naturals (⌊log2 n⌋ for n ≥ 1, given
enough fuel), written structurally so the kernel can evaluate it. -/
def natLog2Fuel : Nat → Nat → Nat
  | 0, _ => 0
  | fuel + 1, n => if n < 2 then 0 else natLog2Fuel fuel (n / 2) + 1

/-- Fuel-driven ⌈log2 (b / a)⌉ for `a < b`: the least `k` with `b ≤ 2 ^ k * a`. -/
def ceilLog2Fuel : Nat → Nat → Nat → Nat
  | 0, _, _ => 0
  | fuel + 1, a, b => if b ≤ a then 0 else ceilLog2Fuel fuel (2 * a) b + 1

/-- ⌊log2 (a / b)⌋ for a positive fraction, with 128 fuel (enough for every
value arising from a u64 byte count and the base-1000 divisors). -/
def floorLog2Frac (a b : Nat) : ℤ :=
  if b ≤ a then (natLog2Fuel 128 (a / b) : ℤ)
  else -(ceilLog2Fuel 128 a b : ℤ)

/-- IEEE-754 binary32 rounding of the nonnegative fraction `a / b`, returned
as a fraction: round the 24-bit significand to nearest, ties to even.  (No
overflow or subnormal handling; all values arising here are far inside the
normal range.) -/
def toF32Frac (a b : Nat) : Nat × Nat :=
  if a = 0 then (0, 1)
  else
    match floorLog2Frac a b - 23 with
    | Int.ofNat n => (rneFrac a (b * 2 ^ n) * 2 ^ n, 1)
    | Int.negSucc m => (rneFrac (a * 2 ^ (m + 1)) b, 2 ^ (m + 1))

/-- The numeric value produced by `impl fmt::Display for Size`, as an exact
fraction: `(self.size as f32) / divisor`, both the u64→f32 conversion and the
division rounding to binary32. -/
def displayValueFrac (size : Nat) : Nat × Nat :=
  let f := toF32Frac size 1
  toF32Frac f.1 (f.2 * unitDivisor (sizeUnit size))

/-- The `{:.2}` rendering of the fraction `a / b`, as an integer count of
hundredths. -/
def fixed2Frac (a b : Nat) : Nat :=
  rneFrac (a * 100) b

/-- The integer count of hundredths actually printed for a byte count. -/
def displayHundredths (size : Nat) : Nat :=
  fixed2Frac (displayValueFrac size).1 (displayValueFrac size).2

/-- The `{:.2}` rendering of a hundredths count as a string. -/
def renderFixed2 (h : Nat) : String :=
  toString (h / 100) ++ "." ++ (if h % 100 < 10 then "0" else "") ++ toString (h % 100)

/-- `format!("{}", Size::new(size))`: the two-decimal value followed by the
unit suffix. -/
def displaySize (size : Nat) : String :=
  renderFixed2 (displayHundredths size) ++ unitSuffix (sizeUnit size)

/-! ### Concrete sample entries used to instantiate the theorems -/

/-- A readable regular file `a/x.txt` with content "hello". -/
def entA : Entry := ⟨"a/x.txt", "x.txt", [104, 101, 108, 108, 111], true, true, true, true⟩

/-- A readable regular file `b/x.txt` with content "hello". -/
def entB : Entry := ⟨"b/x.txt", "x.txt", [104, 101, 108, 108, 111], true, true, true, true⟩

/-- A readable regular file `c/y.txt` with content "hello". -/
def entC : Entry := ⟨"c/y.txt", "y.txt", [104, 101, 108, 108, 111], true, true, true, true⟩

/-- A readable regular file with three bytes of different content. -/
def entD : Entry := ⟨"d/z.txt", "z.txt", [1, 2, 3], true, true, true, true⟩

/-- A regular file on which `File::open` fails. -/
def entNoOpen : Entry := ⟨"e/locked", "locked", [9, 9], true, true, false, true⟩

/-- A regular file that opens but whose reads fail. -/
def entNoRead : Entry := ⟨"f/flaky", "flaky", [1, 2], true, true, true, false⟩

/-- A regular file whose `metadata()` call fails. -/
def entNoMeta : Entry := ⟨"i/nometa", "nometa", [7, 7], true, false, true, true⟩

/-- A readable regular file of exactly five bytes. -/
def entSmall : Entry := ⟨"g/small", "small", [0, 0, 0, 0, 0], true, true, true, true⟩

/-- A readable regular file of exactly one byte. -/
def entOneByte : Entry := ⟨"h/one", "one", [1], true, true, true, true⟩

/-! ### Characterization of the grouping engine -/

theorem mem_insertEntry_ne {K : Type} [DecidableEq K] {m : List (K × List Entry)} {k k₀ : K}
    {g : List Entry} (e : Entry) (hne : k ≠ k₀) :
    (k, g) ∈ insertEntry m k₀ e ↔ (k, g) ∈ m := by
  induction m with
  | nil => simp [insertEntry, hne]
  | cons p rest ih =>
    obtain ⟨k₁, g₁⟩ := p
    by_cases h : k₁ = k₀
    · subst h
      simp [insertEntry, List.mem_cons, Prod.mk.injEq, hne]
    · simp [insertEntry, h, List.mem_cons, ih]

theorem keys_insertEntry {K : Type} [DecidableEq K] (m : List (K × List Entry)) (k : K)
    (e : Entry) :
    (insertEntry m k e).map Prod.fst =
      if k ∈ m.map Prod.fst then m.map Prod.fst else m.map Prod.fst ++ [k] := by
  induction m with
  | nil => simp [insertEntry]
  | cons p rest ih =>
    obtain ⟨k₁, g₁⟩ := p
    by_cases h : k₁ = k
    · subst h; simp [insertEntry]
    · simp only [insertEntry, if_neg h, List.map_cons, ih, List.mem_cons]
      by_cases hk : k ∈ rest.map Prod.fst
      · simp [hk]
      · simp [hk, Ne.symm h]

theorem nodupKeys_insertEntry {K : Type} [DecidableEq K] {m : List (K × List Entry)} (k : K)
    (e : Entry) (h : (m.map Prod.fst).Nodup) :
    ((insertEntry m k e).map Prod.fst).Nodup := by
  rw [keys_insertEntry]
  by_cases hk : k ∈ m.map Prod.fst
  · simpa [hk]
  · simp only [hk, if_false]
    exact List.Nodup.append h (List.nodup_singleton k) (by simpa using hk)

theorem mem_insertEntry_self {K : Type} [DecidableEq K] {m : List (K × List Entry)} {k : K}
    {e : Entry} {g : List Entry} (hnd : (m.map Prod.fst).Nodup) :
    (k, g) ∈ insertEntry m k e ↔
      (∃ g₀, (k, g₀) ∈ m ∧ g = g₀ ++ [e]) ∨ ((∀ g₀, (k, g₀) ∉ m) ∧ g = [e]) := by
  induction m with
  | nil => simp [insertEntry]
  | cons p rest ih =>
    obtain ⟨k₁, g₁⟩ := p
    simp only [List.map_cons, List.nodup_cons] at hnd
    by_cases h : k₁ = k
    · subst h
      have hnotin : ∀ g₀, (k₁, g₀) ∉ rest := fun g₀ hg₀ =>
        hnd.1 (List.mem_map_of_mem Prod.fst hg₀)
      simp only [insertEntry, if_pos rfl]
      constructor
      · intro hmem
        rcases List.mem_cons.mp hmem with hpair | hrest
        · cases hpair
          exact Or.inl ⟨g₁, List.mem_cons_self _ _, rfl⟩
        · exact absurd hrest (hnotin g)
      · rintro (⟨g₀, hg₀, rfl⟩ | ⟨hnone, rfl⟩)
        · rcases List.mem_cons.mp hg₀ with hpair | hrest
          · cases hpair
            exact List.mem_cons_self _ _
          · exact absurd hrest (hnotin g₀)
        · exact absurd (List.mem_cons_self _ _) (hnone g₁)
    · have hne : ¬(k = k₁) := fun hk => h hk.symm
      simp [insertEntry, if_neg h, List.mem_cons, Prod.mk.injEq, ih hnd.2, hne]

theorem nodupKeys_buildMap_aux {K : Type} [DecidableEq K] (f : Entry → Option K)
    (files : List Entry) (m : List (K × List Entry)) (h : (m.map Prod.fst).Nodup) :
    ((files.foldl
        (fun map e => match f e with | some k => insertEntry map k e | none => map)
        m).map Prod.fst).Nodup := by
  induction files generalizing m with
  | nil => simpa
  | cons x xs ih =>
    simp only [List.foldl_cons]
    cases hf : f x with
    | none => simp only [hf]; exact ih m h
    | some k => simp only [hf]; exact ih _ (nodupKeys_insertEntry k x h)

theorem nodupKeys_buildMap {K : Type} [DecidableEq K] (f : Entry → Option K)
    (files : List Entry) : ((buildMap files f).map Prod.fst).Nodup :=
  nodupKeys_buildMap_aux f files [] (by simp)

theorem mem_buildMap {K : Type} [DecidableEq K] (f : Entry → Option K) (files : List Entry)
    (k : K) (g : List Entry) :
    (k, g) ∈ buildMap files f ↔
      files.filter (fun e => f e = some k) = g ∧ g ≠ [] := by
  induction files using List.reverseRecOn generalizing g with
  | nil => simp [buildMap]
  | append_singleton xs x ih =>
    have hstep : buildMap (xs ++ [x]) f =
        match f x with
        | some k₀ => insertEntry (buildMap xs f) k₀ x
        | none => buildMap xs f := by
      simp [buildMap, List.foldl_append]
    rw [hstep, List.filter_append]
    cases hf : f x with
    | none =>
      have hx : (decide (f x = some k)) = false := by simp [hf]
      simp only [List.filter_cons, hx, Bool.false_eq_true, if_false, List.filter_nil,
        List.append_nil]
      exact ih g
    | some k₀ =>
      by_cases hk : k = k₀
      · subst hk
        have hx : (decide (f x = some k)) = true := by simp [hf]
        simp only [List.filter_cons, hx, if_true, List.filter_nil]
        rw [mem_insertEntry_self (nodupKeys_buildMap f xs)]
        constructor
        · rintro (⟨g₀, hg₀, rfl⟩ | ⟨hnone, rfl⟩)
          · obtain ⟨hfil, -⟩ := (ih g₀).mp hg₀
            exact ⟨by rw [hfil], by simp⟩
          · have hF : xs.filter (fun e => f e = some k) = [] := by
              by_contra hF
              exact hnone _ ((ih _).mpr ⟨rfl, hF⟩)
            exact ⟨by rw [hF]; rfl, by simp⟩
        · rintro ⟨rfl, -⟩
          by_cases hF : xs.filter (fun e => f e = some k) = []
          · refine Or.inr ⟨fun g₀ hg₀ => ?_, by rw [hF]; rfl⟩
            obtain ⟨hfil, hne⟩ := (ih g₀).mp hg₀
            exact hne (hfil ▸ hF)
          · exact Or.inl ⟨_, (ih _).mpr ⟨rfl, hF⟩, rfl⟩
      · have hx : (decide (f x = some k)) = false := by
          simp only [hf, decide_eq_true_eq]
          simp [Option.some.injEq, Ne.symm hk]
        simp only [List.filter_cons, hx, Bool.false_eq_true, if_false, List.filter_nil,
          List.append_nil]
        rw [mem_insertEntry_ne x hk]
        exact ih g

/-- Membership characterization of `find_duplicates_by`: the returned groups
are exactly the nonsingleton fibers of the signature function, each listed in
input order. -/
theorem mem_findDuplicatesBy {K : Type} [DecidableEq K] {files : List Entry}
    {f : Entry → Option K} {g : List Entry} :
    g ∈ findDuplicatesBy files f ↔
      ∃ k, files.filter (fun e => f e = some k) = g ∧ 1 < g.length := by
  unfold findDuplicatesBy
  rw [List.mem_filter]
  simp only [List.mem_map, decide_eq_true_eq]
  constructor
  · rintro ⟨⟨⟨k, g'⟩, hmem, rfl⟩, hlen⟩
    exact ⟨k, ((mem_buildMap f files k _).mp hmem).1, hlen⟩
  · rintro ⟨k, hfil, hlen⟩
    refine ⟨⟨⟨k, g⟩, (mem_buildMap f files k g).mpr ⟨hfil, ?_⟩, rfl⟩, hlen⟩
    intro h
    rw [h] at hlen
    simp at hlen

theorem one_lt_length_of_mem_findDuplicatesBy {K : Type} [DecidableEq K] {files : List Entry}
    {f : Entry → Option K} {g : List Entry} (hg : g ∈ findDuplicatesBy files f) :
    1 < g.length := by
  obtain ⟨k, -, hlen⟩ := mem_findDuplicatesBy.mp hg
  exact hlen

theorem mem_files_of_mem_findDuplicatesBy {K : Type} [DecidableEq K] {files : List Entry}
    {f : Entry → Option K} {g : List Entry} {e : Entry} (hg : g ∈ findDuplicatesBy files f)
    (he : e ∈ g) : e ∈ files := by
  obtain ⟨k, hfil, -⟩ := mem_findDuplicatesBy.mp hg
  rw [← hfil] at he
  exact (List.mem_filter.mp he).1

theorem key_of_mem_findDuplicatesBy {K : Type} [DecidableEq K] {files : List Entry}
    {f : Entry → Option K} {g : List Entry} {e : Entry} (hg : g ∈ findDuplicatesBy files f)
    (he : e ∈ g) : ∃ k, f e = some k ∧ files.filter (fun x => f x = some k) = g := by
  obtain ⟨k, hfil, -⟩ := mem_findDuplicatesBy.mp hg
  rw [← hfil] at he
  exact ⟨k, by simpa using (List.mem_filter.mp he).2, hfil⟩

theorem key_eq_of_mem_findDuplicatesBy {K : Type} [DecidableEq K] {files : List Entry}
    {f : Entry → Option K} {g : List Entry} {a b : Entry} (hg : g ∈ findDuplicatesBy files f)
    (ha : a ∈ g) (hb : b ∈ g) : f a = f b := by
  obtain ⟨k, hka, -⟩ := key_of_mem_findDuplicatesBy hg ha
  obtain ⟨k₂, hkb, hfil⟩ := key_of_mem_findDuplicatesBy hg hb
  rw [← hfil] at ha
  have : f a = some k₂ := by simpa using (List.mem_filter.mp ha).2
  rw [this, hkb]

theorem mem_applyStage {K : Type} [DecidableEq K] {f : Entry → Option K}
    {gs : List (List Entry)} {g : List Entry} :
    g ∈ applyStage f gs ↔ ∃ g₀, g₀ ∈ gs ∧ g ∈ findDuplicatesBy g₀ f := by
  unfold applyStage
  simp only [List.mem_flatten, List.mem_map]
  constructor
  · rintro ⟨-, ⟨g₀, hg₀, rfl⟩, hg⟩
    exact ⟨g₀, hg₀, hg⟩
  · rintro ⟨g₀, hg₀, hg⟩
    exact ⟨findDuplicatesBy g₀ f, ⟨g₀, hg₀, rfl⟩, hg⟩

/-- An output group of a stage lies inside one input group. -/
theorem stage_subset {K : Type} [DecidableEq K] {f : Entry → Option K}
    {gs : List (List Entry)} {g : List Entry} (hg : g ∈ applyStage f gs) :
    ∃ g₀, g₀ ∈ gs ∧ ∀ e ∈ g, e ∈ g₀ := by
  obtain ⟨g₀, hg₀, hmem⟩ := mem_applyStage.mp hg
  exact ⟨g₀, hg₀, fun e he => mem_files_of_mem_findDuplicatesBy hmem he⟩

/-- A member of a stage-output group came from some input group and produced
a signature there. -/
theorem stage_back {K : Type} [DecidableEq K] {f : Entry → Option K}
    {gs : List (List Entry)} {g : List Entry} {e : Entry} (hg : g ∈ applyStage f gs)
    (he : e ∈ g) : ∃ g₀, g₀ ∈ gs ∧ e ∈ g₀ ∧ ∃ k, f e = some k := by
  obtain ⟨g₀, hg₀, hmem⟩ := mem_applyStage.mp hg
  obtain ⟨k, hk, -⟩ := key_of_mem_findDuplicatesBy hmem he
  exact ⟨g₀, hg₀, mem_files_of_mem_findDuplicatesBy hmem he, k, hk⟩

theorem one_lt_length_of_two_mem {α : Type} {l : List α} {a b : α} (ha : a ∈ l) (hb : b ∈ l)
    (hne : a ≠ b) : 1 < l.length := by
  match l with
  | [] => cases ha
  | [x] =>
    rw [List.mem_singleton] at ha hb
    exact absurd (ha.trans hb.symm) hne
  | x :: y :: t => simp [List.length_cons]

/-- Two distinct entries of one input group that produce the same signature
land together in one output group of the stage. -/
theorem same_group_forward {K : Type} [DecidableEq K] (f : Entry → Option K)
    {gs : List (List Entry)} {g₀ : List Entry} {a b : Entry} {k : K} (hg₀ : g₀ ∈ gs)
    (ha : a ∈ g₀) (hb : b ∈ g₀) (hka : f a = some k) (hkb : f b = some k) (hne : a ≠ b) :
    ∃ g, g ∈ applyStage f gs ∧ a ∈ g ∧ b ∈ g := by
  have hamem : a ∈ g₀.filter (fun e => f e = some k) := List.mem_filter.mpr ⟨ha, by simp [hka]⟩
  have hbmem : b ∈ g₀.filter (fun e => f e = some k) := List.mem_filter.mpr ⟨hb, by simp [hkb]⟩
  refine ⟨g₀.filter (fun e => f e = some k), mem_applyStage.mpr ⟨g₀, hg₀, ?_⟩, hamem, hbmem⟩
  exact mem_findDuplicatesBy.mpr ⟨k, rfl, one_lt_length_of_two_mem hamem hbmem hne⟩

/-! ### Signature functions -/

theorem sha1Read_open_fail {hash : Bytes → Bytes} {e : Entry} (h : e.canOpen = false)
    (n : Nat) : sha1Read hash e n = none := by
  simp [sha1Read, h]

theorem sha1Read_isSome (hash : Bytes → Bytes) (e : Entry) (n : Nat)
    (h : e.canOpen = true) : ∃ k, sha1Read hash e n = some k := by
  by_cases hn : 0 < n <;> simp [sha1Read, h, hn]

theorem sha1Read_content_congr {hash : Bytes → Bytes} {a b : Entry} (n : Nat)
    (hca : a.canOpen = true) (hcb : b.canOpen = true) (hra : a.readOk = true)
    (hrb : b.readOk = true) (hc : a.content = b.content) :
    sha1Read hash a n = sha1Read hash b n := by
  simp [sha1Read, hca, hcb, hra, hrb, hc]

theorem metaOk_of_metadataSize_isSome {e : Entry} {k : Nat} (h : metadataSize e = some k) :
    e.metaOk = true := by
  cases hm : e.metaOk with
  | true => rfl
  | false => simp [metadataSize, hm] at h

theorem metadataSize_of_metaOk {e : Entry} (h : e.metaOk = true) :
    metadataSize e = some e.content.length := by
  simp [metadataSize, h]

/-! ### Pipeline structure -/

theorem findDuplicateFiles_fullContent (hash : Bytes → Bytes) (files : List Entry) :
    findDuplicateFiles hash files Algorithm.fullContent =
      applyStage (fun e => sha1Read hash e 0)
        (applyStage (fun e => sha1Read hash e 4096)
          (applyStage (fun e => sha1Read hash e 1024)
            (applyStage metadataSize [files]))) := rfl

theorem findDuplicateFiles_nameAndSize (hash : Bytes → Bytes) (files : List Entry) :
    findDuplicateFiles hash files Algorithm.nameAndSize =
      applyStage metadataSize (applyStage sigName [files]) := rfl

/-- A group whose members all produce the same signature passes a stage
unchanged. -/
theorem mem_applyStage_self {K : Type} [DecidableEq K] {f : Entry → Option K}
    {gs : List (List Entry)} {g : List Entry} (k : K) (hg : g ∈ gs)
    (hk : ∀ e ∈ g, f e = some k) (hlen : 1 < g.length) : g ∈ applyStage f gs := by
  refine mem_applyStage.mpr ⟨g, hg, mem_findDuplicatesBy.mpr ⟨k, ?_, hlen⟩⟩
  exact List.filter_eq_self.mpr (fun e he => by simp [hk e he])

/-- A set of readable files with identical contents survives the whole
full-content pipeline as one group. -/
theorem fullContent_refl_mem {hash : Bytes → Bytes} {files : List Entry}
    (hlen : 1 < files.length)
    (hread : ∀ e ∈ files, e.canOpen = true ∧ e.readOk = true ∧ e.metaOk = true)
    (hsame : ∀ a ∈ files, ∀ b ∈ files, a.content = b.content) :
    files ∈ findDuplicateFiles hash files Algorithm.fullContent := by
  have hne : files ≠ [] := by
    intro h
    rw [h] at hlen
    simp at hlen
  have he₀ : files.head hne ∈ files := List.head_mem hne
  set e₀ := files.head hne with he₀def
  rw [findDuplicateFiles_fullContent]
  have h₁ : files ∈ applyStage metadataSize [files] := by
    refine mem_applyStage_self e₀.content.length (List.mem_singleton.mpr rfl)
      (fun e he => ?_) hlen
    rw [metadataSize_of_metaOk (hread e he).2.2, hsame e he e₀ he₀]
  have hkey : ∀ n : Nat, ∀ e ∈ files, sha1Read hash e n = sha1Read hash e₀ n := fun n e he =>
    sha1Read_content_congr n (hread e he).1 (hread e₀ he₀).1 (hread e he).2.1
      (hread e₀ he₀).2.1 (hsame e he e₀ he₀)
  obtain ⟨k₁, hk₁⟩ := sha1Read_isSome hash e₀ 1024 (hread e₀ he₀).1
  obtain ⟨k₂, hk₂⟩ := sha1Read_isSome hash e₀ 4096 (hread e₀ he₀).1
  obtain ⟨k₃, hk₃⟩ := sha1Read_isSome hash e₀ 0 (hread e₀ he₀).1
  have h₂ : files ∈ applyStage (fun e => sha1Read hash e 1024) (applyStage metadataSize [files]) :=
    mem_applyStage_self k₁ h₁ (fun e he => (hkey 1024 e he).trans hk₁) hlen
  have h₃ : files ∈ applyStage (fun e => sha1Read hash e 4096)
      (applyStage (fun e => sha1Read hash e 1024) (applyStage metadataSize [files])) :=
    mem_applyStage_self k₂ h₂ (fun e he => (hkey 4096 e he).trans hk₂) hlen
  exact mem_applyStage_self k₃ h₃ (fun e he => (hkey 0 e he).trans hk₃) hlen

/-- Membership characterization of two consecutive stages starting from the
single initial group: the output groups are exactly the nonsingleton fibers
of the pair of signatures. -/
theorem mem_twoStage {K₁ K₂ : Type} [DecidableEq K₁] [DecidableEq K₂]
    {f₁ : Entry → Option K₁} {f₂ : Entry → Option K₂} {files g : List Entry} :
    g ∈ applyStage f₂ (applyStage f₁ [files]) ↔
      ∃ k₁ k₂,
        files.filter (fun e => decide (f₂ e = some k₂) && decide (f₁ e = some k₁)) = g ∧
        1 < g.length := by
  rw [mem_applyStage]
  constructor
  · rintro ⟨g₁, hg₁, hg⟩
    rw [mem_applyStage] at hg₁
    obtain ⟨g₀, hg₀, hmem₁⟩ := hg₁
    rw [List.mem_singleton] at hg₀
    subst hg₀
    obtain ⟨k₁, hfil₁, -⟩ := mem_findDuplicatesBy.mp hmem₁
    obtain ⟨k₂, hfil₂, hlen⟩ := mem_findDuplicatesBy.mp hg
    refine ⟨k₁, k₂, ?_, hlen⟩
    rw [← hfil₂, ← hfil₁, List.filter_filter]
  · rintro ⟨k₁, k₂, hfil, hlen⟩
    have hlen₁ : 1 < (files.filter (fun e => decide (f₁ e = some k₁))).length := by
      have := List.length_filter_le (fun e => decide (f₂ e = some k₂))
        (files.filter (fun e => decide (f₁ e = some k₁)))
      rw [List.filter_filter, hfil] at this
      omega
    refine ⟨files.filter (fun e => decide (f₁ e = some k₁)),
      mem_applyStage.mpr ⟨files, List.mem_singleton.mpr rfl,
        mem_findDuplicatesBy.mpr ⟨k₁, rfl, hlen₁⟩⟩,
      mem_findDuplicatesBy.mpr ⟨k₂, ?_, hlen⟩⟩
    rw [List.filter_filter, hfil]

/-! ### Result aggregation -/

theorem lookupSize_eq_none_iff (map : List (Nat × List Entry)) (s : Nat) :
    lookupSize map s = none ↔ s ∉ map.map Prod.fst := by
  simp only [lookupSize, Option.map_eq_none', List.find?_eq_none, List.mem_map,
    decide_eq_true_eq, not_exists]
  aesop

theorem buildDupeMap_append (gs : List (List Entry)) (g : List Entry) :
    buildDupeMap (gs ++ [g]) =
      if groupSize g ∈ (buildDupeMap gs).map Prod.fst then buildDupeMap gs
      else buildDupeMap gs ++ [(groupSize g, g)] := by
  simp [buildDupeMap, List.foldl_append]

theorem sizes_buildDupeMap (groups : List (List Entry)) :
    ∀ p ∈ buildDupeMap groups, groupSize p.2 = p.1 := by
  induction groups using List.reverseRecOn with
  | nil => simp [buildDupeMap]
  | append_singleton gs g ih =>
    rw [buildDupeMap_append]
    by_cases hmem : groupSize g ∈ (buildDupeMap gs).map Prod.fst
    · rw [if_pos hmem]
      exact ih
    · rw [if_neg hmem]
      intro p hp
      rcases List.mem_append.mp hp with hp | hp
      · exact ih p hp
      · rw [List.mem_singleton] at hp
        subst hp
        rfl

theorem nodupKeys_buildDupeMap (groups : List (List Entry)) :
    ((buildDupeMap groups).map Prod.fst).Nodup := by
  induction groups using List.reverseRecOn with
  | nil => simp [buildDupeMap]
  | append_singleton gs g ih =>
    rw [buildDupeMap_append]
    by_cases hmem : groupSize g ∈ (buildDupeMap gs).map Prod.fst
    · rw [if_pos hmem]
      exact ih
    · rw [if_neg hmem, List.map_append]
      exact List.Nodup.append ih (List.nodup_singleton _) (by simpa using hmem)

theorem mem_iff_lookupSize {map : List (Nat × List Entry)}
    (hnd : (map.map Prod.fst).Nodup) (s : Nat) (g : List Entry) :
    (s, g) ∈ map ↔ lookupSize map s = some g := by
  induction map with
  | nil => simp [lookupSize]
  | cons p rest ih =>
    obtain ⟨s₁, g₁⟩ := p
    simp only [List.map_cons, List.nodup_cons] at hnd
    by_cases hs : s₁ = s
    · subst hs
      have hnot : ∀ g', (s₁, g') ∉ rest := fun g' hg' =>
        hnd.1 (List.mem_map_of_mem Prod.fst hg')
      rw [lookupSize, List.find?_cons_of_pos _ (by simp)]
      simp only [Option.map_some', Option.some.injEq, List.mem_cons, Prod.mk.injEq, true_and]
      constructor
      · rintro (rfl | hmem)
        · rfl
        · exact absurd hmem (hnot g)
      · intro h
        exact Or.inl h.symm
    · rw [lookupSize, List.find?_cons_of_neg _ (by simpa using hs)]
      rw [List.mem_cons]
      have : ¬((s, g) = (s₁, g₁)) := fun h => hs (congrArg Prod.fst h).symm
      simp only [this, false_or]
      exact ih hnd.2

theorem lookupSize_buildDupeMap (groups : List (List Entry)) (s : Nat) :
    lookupSize (buildDupeMap groups) s =
      groups.find? (fun g => groupSize g = s) := by
  induction groups using List.reverseRecOn with
  | nil => simp [buildDupeMap, lookupSize]
  | append_singleton gs g ih =>
    rw [buildDupeMap_append, List.find?_append, ← ih]
    by_cases hs : groupSize g = s
    · subst hs
      by_cases hmem : groupSize g ∈ (buildDupeMap gs).map Prod.fst
      · rw [if_pos hmem]
        have hne : lookupSize (buildDupeMap gs) (groupSize g) ≠ none := by
          rw [Ne, lookupSize_eq_none_iff]
          simpa using hmem
        obtain ⟨x, hx⟩ := Option.ne_none_iff_exists'.mp hne
        rw [hx, Option.or_some]
      · rw [if_neg hmem]
        have hnone : lookupSize (buildDupeMap gs) (groupSize g) = none :=
          (lookupSize_eq_none_iff _ _).mpr hmem
        rw [hnone, Option.none_or, lookupSize, List.find?_append]
        have hfb : (buildDupeMap gs).find? (fun p => p.1 = groupSize g) = none := by
          have := hnone
          rw [lookupSize, Option.map_eq_none'] at this
          exact this
        rw [hfb, Option.none_or]
        simp [lookupSize]
    · have hsingle : [g].find? (fun g' => decide (groupSize g' = s)) = none := by
        simp [hs]
      rw [hsingle, Option.or_none]
      by_cases hmem : groupSize g ∈ (buildDupeMap gs).map Prod.fst
      · rw [if_pos hmem]
      · rw [if_neg hmem, lookupSize, List.find?_append]
        have hsingle₂ : [(groupSize g, g)].find? (fun p => decide (p.1 = s)) = none := by
          simp [hs]
        rw [hsingle₂, Option.or_none]
        rfl

/-! ### Full-content pipeline helpers -/

theorem mem_files_of_fullContent_mem {hash : Bytes → Bytes} {files : List Entry}
    {g : List Entry} {e : Entry}
    (hg : g ∈ applyStage (fun e => sha1Read hash e 0)
        (applyStage (fun e => sha1Read hash e 4096)
          (applyStage (fun e => sha1Read hash e 1024)
            (applyStage metadataSize [files]))))
    (he : e ∈ g) : e ∈ files := by
  obtain ⟨g₃, hg₃, hm₄⟩ := mem_applyStage.mp hg
  have he₃ := mem_files_of_mem_findDuplicatesBy hm₄ he
  obtain ⟨g₂, hg₂, hm₃⟩ := mem_applyStage.mp hg₃
  have he₂ := mem_files_of_mem_findDuplicatesBy hm₃ he₃
  obtain ⟨g₁, hg₁, hm₂⟩ := mem_applyStage.mp hg₂
  have he₁ := mem_files_of_mem_findDuplicatesBy hm₂ he₂
  obtain ⟨g₀, hg₀, hm₁⟩ := mem_applyStage.mp hg₁
  have he₀ := mem_files_of_mem_findDuplicatesBy hm₁ he₁
  rwa [List.mem_singleton.mp hg₀] at he₀

theorem metaOk_of_fullContent_mem {hash : Bytes → Bytes} {files : List Entry}
    {g : List Entry} {e : Entry}
    (hg : g ∈ applyStage (fun e => sha1Read hash e 0)
        (applyStage (fun e => sha1Read hash e 4096)
          (applyStage (fun e => sha1Read hash e 1024)
            (applyStage metadataSize [files]))))
    (he : e ∈ g) : e.metaOk = true := by
  obtain ⟨g₃, hg₃, he₃, -⟩ := stage_back hg he
  obtain ⟨g₂, hg₂, he₂, -⟩ := stage_back hg₃ he₃
  obtain ⟨g₁, hg₁, he₁, -⟩ := stage_back hg₂ he₂
  obtain ⟨g₀, hg₀, he₀, k, hk⟩ := stage_back hg₁ he₁
  exact metaOk_of_metadataSize_isSome hk

/-! ### The claims -/

/-- C1: In full-content mode, treating SHA-1 as collision-free (injective)
and the files as readable, two files end up in the same final group iff their
entire byte sequences are identical: members of one final group have equal
contents, and byte-identical files that both survive grouping share a final
group. -/
theorem c1_full_content_iff (hash : Bytes → Bytes) (hinj : Function.Injective hash)
    (files : List Entry) (hread : ∀ e ∈ files, e.canOpen = true ∧ e.readOk = true) :
    (∀ g ∈ findDuplicateFiles hash files Algorithm.fullContent,
        ∀ a ∈ g, ∀ b ∈ g, a.content = b.content) ∧
    (∀ a ∈ files, ∀ b ∈ files, a.content = b.content →
        (∃ ga ∈ findDuplicateFiles hash files Algorithm.fullContent, a ∈ ga) →
        (∃ gb ∈ findDuplicateFiles hash files Algorithm.fullContent, b ∈ gb) →
        ∃ g ∈ findDuplicateFiles hash files Algorithm.fullContent, a ∈ g ∧ b ∈ g) := by
  rw [findDuplicateFiles_fullContent]
  constructor
  · intro g hg a ha b hb
    have haf : a ∈ files := mem_files_of_fullContent_mem hg ha
    have hbf : b ∈ files := mem_files_of_fullContent_mem hg hb
    obtain ⟨g₃, hg₃, hm₄⟩ := mem_applyStage.mp hg
    have hkey := key_eq_of_mem_findDuplicatesBy hm₄ ha hb
    simp only [sha1Read, (hread a haf).1, (hread b hbf).1, (hread a haf).2,
      (hread b hbf).2, if_true, lt_irrefl, if_false, Option.some.injEq] at hkey
    exact hinj hkey
  · intro a haf b hbf hcont hsa hsb
    obtain ⟨ga, hga, hain⟩ := hsa
    obtain ⟨gb, hgb, hbin⟩ := hsb
    by_cases hab : a = b
    · exact ⟨ga, hga, hain, hab ▸ hain⟩
    · have hma : a.metaOk = true := metaOk_of_fullContent_mem hga hain
      have hmb : b.metaOk = true := metaOk_of_fullContent_mem hgb hbin
      have hka : metadataSize a = some a.content.length := metadataSize_of_metaOk hma
      have hkb : metadataSize b = some a.content.length := by
        rw [metadataSize_of_metaOk hmb, hcont]
      obtain ⟨g₁, hg₁, ha₁, hb₁⟩ := same_group_forward metadataSize
        (List.mem_singleton.mpr rfl) haf hbf hka hkb hab
      have hcongr : ∀ n : Nat, sha1Read hash b n = sha1Read hash a n := fun n =>
        sha1Read_content_congr n (hread b hbf).1 (hread a haf).1 (hread b hbf).2
          (hread a haf).2 hcont.symm
      obtain ⟨k₁, hk₁⟩ := sha1Read_isSome hash a 1024 (hread a haf).1
      obtain ⟨g₂, hg₂, ha₂, hb₂⟩ := same_group_forward (fun e => sha1Read hash e 1024)
        hg₁ ha₁ hb₁ hk₁ ((hcongr 1024).trans hk₁) hab
      obtain ⟨k₂, hk₂⟩ := sha1Read_isSome hash a 4096 (hread a haf).1
      obtain ⟨g₃, hg₃, ha₃, hb₃⟩ := same_group_forward (fun e => sha1Read hash e 4096)
        hg₂ ha₂ hb₂ hk₂ ((hcongr 4096).trans hk₂) hab
      obtain ⟨k₃, hk₃⟩ := sha1Read_isSome hash a 0 (hread a haf).1
      obtain ⟨g₄, hg₄, ha₄, hb₄⟩ := same_group_forward (fun e => sha1Read hash e 0)
        hg₃ ha₃ hb₃ hk₃ ((hcongr 0).trans hk₃) hab
      exact ⟨g₄, hg₄, ha₄, hb₄⟩

/-- C1 witness: three readable files with identical content "hello"; the two
with different names still share a final full-content group. -/
theorem c1_witness :
    ∃ g ∈ findDuplicateFiles id [entA, entB, entC] Algorithm.fullContent,
      entA ∈ g ∧ entC ∈ g :=
  (c1_full_content_iff id (fun a b h => h) [entA, entB, entC] (by decide)).2
    entA (by decide) entC (by decide) rfl
    ⟨[entA, entB, entC], fullContent_refl_mem (by decide) (by decide) (by decide),
      by decide⟩
    ⟨[entA, entB, entC], fullContent_refl_mem (by decide) (by decide) (by decide),
      by decide⟩

/-- C2 counterexample: for a readable one-byte file, the 1024-byte prefix
signature is NOT the digest over exactly the one byte present (with the
digest function instantiated to the identity): the code digests the whole
zero-padded 1024-byte buffer. -/
theorem c2_counterexample :
    entOneByte.canOpen = true ∧ entOneByte.readOk = true ∧
    entOneByte.content.length < 1024 ∧
    sha1Read id entOneByte 1024 ≠ some (id entOneByte.content) := by decide

/-- C2 amended: for a readable file shorter than a nonzero `byte_limit`, the
prefix signature is the digest over the `byte_limit`-byte buffer holding the
bytes present followed by zero padding; an empty file yields the digest of
`byte_limit` zero bytes, not of the empty sequence. -/
theorem c2_short_file_digest (hash : Bytes → Bytes) (e : Entry) (n : Nat)
    (hco : e.canOpen = true) (hro : e.readOk = true) (hn : 0 < n)
    (hshort : e.content.length < n) :
    sha1Read hash e n = some (hash (e.content ++ List.replicate (n - e.content.length) 0)) ∧
    (e.content = [] → sha1Read hash e n = some (hash (List.replicate n 0))) := by
  constructor
  · simp only [sha1Read, hco, hro, if_true, if_pos hn]
    rw [List.take_of_length_le (le_of_lt hshort)]
  · intro hempty
    simp [sha1Read, hco, hro, hn, hempty]

/-- C2 witness: the one-byte file under the 1024-byte stage. -/
theorem c2_witness :
    sha1Read id entOneByte 1024 =
      some (id (entOneByte.content ++ List.replicate (1024 - entOneByte.content.length) 0)) :=
  (c2_short_file_digest id entOneByte 1024 rfl rfl (by decide) (by decide)).1

/-- C3 counterexample: a file that opens but whose read fails still yields a
signature (the digest of the zero buffer, and of the empty sequence in
full-content mode), contradicting the claim that a read failure yields no
value. -/
theorem c3_counterexample :
    entNoRead.canOpen = true ∧ entNoRead.readOk = false ∧
    sha1Read id entNoRead 1024 ≠ none ∧ sha1Read id entNoRead 0 ≠ none := by decide

/-- C3 amended: a failure to OPEN the file yields no signature, and such a
candidate is excluded from the stage's groups and from all later stages; a
failed READ on an opened file is swallowed (`.ok()` / `unwrap_or`): the
prefix stages digest the untouched zero buffer and the full-content stage
digests the empty sequence.  The pipeline is a total function and never
aborts. -/
theorem c3_open_failure_excludes (hash : Bytes → Bytes) :
    (∀ (e : Entry) (n : Nat), e.canOpen = false → sha1Read hash e n = none) ∧
    (∀ (e : Entry) (n : Nat), e.canOpen = true → e.readOk = false → 0 < n →
      sha1Read hash e n = some (hash (List.replicate n 0))) ∧
    (∀ e : Entry, e.canOpen = true → e.readOk = false →
      sha1Read hash e 0 = some (hash [])) ∧
    (∀ (K : Type) [DecidableEq K] (f : Entry → Option K) (files g : List Entry)
      (e : Entry), f e = none → g ∈ findDuplicatesBy files f → e ∉ g) ∧
    (∀ (K : Type) [DecidableEq K] (f : Entry → Option K) (gs : List (List Entry))
      (g' : List Entry) (e : Entry), (∀ g ∈ gs, e ∉ g) → g' ∈ applyStage f gs →
      e ∉ g') := by
  refine ⟨fun e n h => sha1Read_open_fail h n, ?_, ?_, ?_, ?_⟩
  · intro e n hco hro hn
    simp [sha1Read, hco, hro, hn]
  · intro e hco hro
    simp [sha1Read, hco, hro]
  · intro K instK f files g e hnone hg he
    obtain ⟨k, hk, -⟩ := key_of_mem_findDuplicatesBy hg he
    rw [hnone] at hk
    cases hk
  · intro K instK f gs g' e hnotin hg' he
    obtain ⟨g₀, hg₀, he₀, -⟩ := stage_back hg' he
    exact hnotin g₀ hg₀ he₀

/-- C3 witness: the open-failure file is excluded, the read-failure file is
not; exclusion propagates through a stage. -/
theorem c3_witness :
    sha1Read id entNoOpen 1024 = none ∧
    sha1Read id entNoRead 1024 = some (id (List.replicate 1024 0)) ∧
    sha1Read id entNoRead 0 = some (id []) ∧
    entNoMeta ∉ ([entA, entB] : List Entry) ∧
    entNoMeta ∉ ([entA, entB] : List Entry) :=
  ⟨(c3_open_failure_excludes id).1 entNoOpen 1024 rfl,
   (c3_open_failure_excludes id).2.1 entNoRead 1024 rfl rfl (by decide),
   (c3_open_failure_excludes id).2.2.1 entNoRead rfl rfl,
   (c3_open_failure_excludes id).2.2.2.1 Nat metadataSize [entA, entB, entNoMeta]
     [entA, entB] entNoMeta (by decide) (by decide),
   (c3_open_failure_excludes id).2.2.2.2 Nat metadataSize [[entA, entB]]
     [entA, entB] entNoMeta (by decide) (by decide)⟩

/-- C4: for every input file list and signature function, every group
returned by the grouping engine has at least two members, all members carry
equal signature keys, and a candidate whose signature is `none` lies in no
returned group. -/
theorem c4_group_invariants {K : Type} [DecidableEq K] (files : List Entry)
    (f : Entry → Option K) (g : List Entry) (hg : g ∈ findDuplicatesBy files f) :
    2 ≤ g.length ∧ (∀ a ∈ g, ∀ b ∈ g, f a = f b) ∧ (∀ e, f e = none → e ∉ g) := by
  refine ⟨one_lt_length_of_mem_findDuplicatesBy hg,
    fun a ha b hb => key_eq_of_mem_findDuplicatesBy hg ha hb,
    fun e hnone he => ?_⟩
  obtain ⟨k, hk, -⟩ := key_of_mem_findDuplicatesBy hg he
  rw [hnone] at hk
  cases hk

/-- C4 witness: grouping three files by name returns the two name-sharing
files as one group. -/
theorem c4_witness :
    2 ≤ ([entA, entB] : List Entry).length ∧
    (∀ a ∈ ([entA, entB] : List Entry), ∀ b ∈ ([entA, entB] : List Entry),
      sigName a = sigName b) ∧
    (∀ e, sigName e = none → e ∉ ([entA, entB] : List Entry)) :=
  c4_group_invariants [entA, entB, entD] sigName [entA, entB] (by decide)

/-- C5: in the result aggregator, the group retained under a total-size key
is exactly the first-inserted group with that total size; a later distinct
group of the same total size is dropped from the report. -/
theorem c5_size_key_collision (groups : List (List Entry)) (s : Nat) :
    (lookupSize (buildDupeMap groups) s = groups.find? (fun g => groupSize g = s)) ∧
    (∀ p ∈ buildDupeMap groups, groupSize p.2 = p.1) ∧
    (∀ g : List Entry,
      ((groupSize g, g) ∈ buildDupeMap groups ↔
        groups.find? (fun g' => groupSize g' = groupSize g) = some g)) :=
  ⟨lookupSize_buildDupeMap groups s, sizes_buildDupeMap groups,
   fun g => (mem_iff_lookupSize (nodupKeys_buildDupeMap groups) _ g).trans
     (by rw [lookupSize_buildDupeMap])⟩

/-- C5 witness: two distinct groups of identical total size 5; the map keeps
the first. -/
theorem c5_witness :
    (lookupSize (buildDupeMap [[entA], [entB]]) 5 =
      List.find? (fun g => groupSize g = 5) [[entA], [entB]]) ∧
    groupSize ((5, [entA]) : Nat × List Entry).2 = 5 :=
  ⟨(c5_size_key_collision [[entA], [entB]] 5).1,
   (c5_size_key_collision [[entA], [entB]] 5).2.1 (5, [entA]) (by decide)⟩

/-- C6: every prefix-hash stage is a monotonic narrowing: each output group
is contained in an input group, and (for pairwise-disjoint input groups, as
produced by the pipeline) in exactly one input group, so no candidate is
grouped with a candidate from a different input group. -/
theorem c6_stage_refinement (hash : Bytes → Bytes) (n : Nat) (gs : List (List Entry))
    (g' : List Entry) (hg' : g' ∈ applyStage (fun e => sha1Read hash e n) gs)
    (hdis : List.Pairwise List.Disjoint gs) :
    (∃ g₀ ∈ gs, ∀ e ∈ g', e ∈ g₀) ∧ (∃! g₀, g₀ ∈ gs ∧ ∀ e ∈ g', e ∈ g₀) := by
  obtain ⟨g₀, hg₀, hsub⟩ := stage_subset hg'
  refine ⟨⟨g₀, hg₀, hsub⟩, g₀, ⟨hg₀, hsub⟩, ?_⟩
  rintro g₁ ⟨hg₁, hsub₁⟩
  obtain ⟨gx, hgx, hmem⟩ := mem_applyStage.mp hg'
  have hlen : 1 < g'.length := one_lt_length_of_mem_findDuplicatesBy hmem
  obtain ⟨e, he⟩ : ∃ e, e ∈ g' := by
    cases g' with
    | nil => simp at hlen
    | cons x t => exact ⟨x, List.mem_cons_self x t⟩
  by_contra hne
  exact (List.Pairwise.forall (fun x y h => List.disjoint_symm h) hdis hg₁ hg₀ hne)
    (hsub₁ e he) (hsub e he)

/-- C6 witness: the 1024-byte stage on one input group of three files. -/
theorem c6_witness :
    (∃ g₀ ∈ [[entA, entB, entD]], ∀ e ∈ ([entA, entB] : List Entry), e ∈ g₀) ∧
    (∃! g₀, g₀ ∈ [[entA, entB, entD]] ∧ ∀ e ∈ ([entA, entB] : List Entry), e ∈ g₀) :=
  c6_stage_refinement id 1024 [[entA, entB, entD]] [entA, entB]
    (by set_option maxRecDepth 40000 in decide) (by simp)

/-- C7 counterexample: a regular file of exactly the threshold size (5 bytes
at threshold 5) is NOT collected, although the claim says files at or above
the threshold are. -/
theorem c7_counterexample :
    entSmall.isFile = true ∧ metadataSize entSmall = some 5 ∧ 5 ≤ 5 ∧
    entSmall ∉ collectFiles [entSmall] 5 := by decide

/-- C7 amended: the initial candidate collection contains exactly the
regular files with readable metadata whose byte size is STRICTLY greater
than the byte threshold; files at or below the threshold are excluded. -/
theorem c7_min_size_filter (entries : List Entry) (minSize : Nat) (e : Entry) :
    e ∈ collectFiles entries minSize ↔
      e ∈ entries ∧ e.isFile = true ∧ ∃ s, metadataSize e = some s ∧ minSize < s := by
  unfold collectFiles
  rw [List.mem_filter]
  constructor
  · rintro ⟨hmem, hp⟩
    rw [Bool.and_eq_true] at hp
    refine ⟨hmem, hp.1, ?_⟩
    obtain ⟨hfile, hsize⟩ := hp
    cases hms : metadataSize e with
    | none => rw [hms] at hsize; simp at hsize
    | some s =>
      rw [hms] at hsize
      exact ⟨s, rfl, by simpa using hsize⟩
  · rintro ⟨hmem, hfile, s, hms, hlt⟩
    refine ⟨hmem, ?_⟩
    rw [Bool.and_eq_true]
    exact ⟨hfile, by simp [hms, hlt]⟩

/-- C7 witness: a six-byte file passes the threshold 4 filter. -/
theorem c7_witness :
    entA ∈ collectFiles [entA, entSmall] 4 ↔
      entA ∈ [entA, entSmall] ∧ entA.isFile = true ∧
        ∃ s, metadataSize entA = some s ∧ 4 < s :=
  c7_min_size_filter [entA, entSmall] 4 entA

/-- C8 counterexample: at 2^64 − 1 bytes the unit is gigabytes as claimed,
but the printed value is the two-decimal rendering of the binary32 quotient,
18446743552.00, not of the exact quotient 18446744073.71: the claimed
equality of the displayed value with the raw count divided by the divisor
fails for counts beyond f32 precision. -/
theorem c8_counterexample :
    sizeUnit 18446744073709551615 = SizeUnit.gigabyte ∧
    displayHundredths 18446744073709551615 = 1844674355200 ∧
    rneFrac (18446744073709551615 * 100) 1000000000 = 1844674407371 ∧
    displayHundredths 18446744073709551615 ≠
      rneFrac (18446744073709551615 * 100) 1000000000 := by decide

/-- C8 amended: the unit is kilobytes below 1,000,000 bytes, megabytes below
1,000,000,000 and gigabytes otherwise; the displayed value is the two-decimal
rendering of the binary32 quotient (size as f32, divided by 1,000 / 1,000,000
/ 1,000,000,000), which agrees with the exact quotient only within f32
precision; 3,000,000 bytes display as "3.00Mb". -/
theorem c8_display_units (n : Nat) :
    displaySize n =
      renderFixed2 (displayHundredths n) ++
        (if n < 1000000 then "Kb" else if n < 1000000000 then "Mb" else "Gb") ∧
    displaySize 3000000 = "3.00Mb" := by
  constructor
  · unfold displaySize
    congr 1
    unfold sizeUnit
    by_cases h1 : n < 1000000
    · rw [if_pos h1, if_pos h1]
      rfl
    · rw [if_neg h1, if_neg h1]
      by_cases h2 : n < 1000000000
      · rw [if_pos h2, if_pos h2]
        rfl
      · rw [if_neg h2, if_neg h2]
        rfl
  · decide

/-- C9: the name stage and the size stage commute in effect: when all
signature computations succeed, grouping by name then refining by size
yields the same set of groups as grouping by size then refining by name. -/
theorem c9_name_size_commute (hash : Bytes → Bytes) (files : List Entry)
    (hmeta : ∀ e ∈ files, e.metaOk = true) :
    findDuplicateFiles hash files Algorithm.nameAndSize =
      applyStage metadataSize (applyStage sigName [files]) ∧
    ∀ g, (g ∈ applyStage metadataSize (applyStage sigName [files]) ↔
      g ∈ applyStage sigName (applyStage metadataSize [files])) := by
  refine ⟨findDuplicateFiles_nameAndSize hash files, fun g => ?_⟩
  rw [mem_twoStage, mem_twoStage]
  constructor
  · rintro ⟨k₁, k₂, hfil, hlen⟩
    refine ⟨k₂, k₁, ?_, hlen⟩
    rw [← hfil]
    exact List.filter_congr (fun e he => by rw [Bool.and_comm])
  · rintro ⟨k₁, k₂, hfil, hlen⟩
    refine ⟨k₂, k₁, ?_, hlen⟩
    rw [← hfil]
    exact List.filter_congr (fun e he => by rw [Bool.and_comm])

/-- C9 witness: two same-named same-sized files under both stage orders. -/
theorem c9_witness :
    (findDuplicateFiles id [entA, entB] Algorithm.nameAndSize =
      applyStage metadataSize (applyStage sigName [[entA, entB]])) ∧
    ([entA, entB] ∈ applyStage metadataSize (applyStage sigName [[entA, entB]]) ↔
      [entA, entB] ∈ applyStage sigName (applyStage metadataSize [[entA, entB]])) :=
  ⟨(c9_name_size_commute id [entA, entB] (by decide)).1,
   (c9_name_size_commute id [entA, entB] (by decide)).2 [entA, entB]⟩

/-- C10: for every readable file and nonzero `bytes_limit`, the prefix
signature is the digest of a buffer of exactly `bytes_limit` bytes — the
bytes read at the start of the file followed by zero padding — and an empty
file's 1024-byte signature is the digest of 1024 zero bytes. -/
theorem c10_zero_padded_buffer (hash : Bytes → Bytes) (e : Entry) (n : Nat)
    (hn : 0 < n) (hco : e.canOpen = true) (hro : e.readOk = true) :
    sha1Read hash e n =
      some (hash (e.content.take n ++ List.replicate (n - e.content.length) 0)) ∧
    (e.content.take n ++ List.replicate (n - e.content.length) 0).length = n ∧
    (e.content = [] → sha1Read hash e 1024 = some (hash (List.replicate 1024 0))) := by
  have hmain : ∀ m : Nat, 0 < m → sha1Read hash e m =
      some (hash (e.content.take m ++ List.replicate (m - e.content.length) 0)) := by
    intro m hm
    simp only [sha1Read, hco, hro, if_true, if_pos hm]
    have harith : m - (e.content.take m).length = m - e.content.length := by
      rw [List.length_take]
      omega
    rw [harith]
  refine ⟨hmain n hn, ?_, fun hempty => ?_⟩
  · rw [List.length_append, List.length_take, List.length_replicate]
    omega
  · rw [hmain 1024 (by norm_num), hempty]
    simp only [List.take_nil, List.nil_append, List.length_nil, Nat.sub_zero]

/-- C10 witness: a three-byte readable file under a four-byte limit. -/
theorem c10_witness :
    (sha1Read id entD 4 =
      some (id (entD.content.take 4 ++ List.replicate (4 - entD.content.length) 0))) ∧
    (entD.content.take 4 ++ List.replicate (4 - entD.content.length) 0).length = 4 ∧
    (entD.content = [] → sha1Read id entD 1024 = some (id (List.replicate 1024 0))) :=
  c10_zero_padded_buffer id entD 4 (by decide) rfl rfl

end Dupe
